import Mathlib

/-!
Verification of the friendly-parakeet retrieval pipeline.

Shallow embedding of the chunking, project-grouping, indexing and
orchestration code. Python strings are modelled as `List Char` where the
code slices them, machine integers as `Int`/`Nat`, raised `ValueError`s as
`Except String`, and the chunker's `while` loop as a fuel-indexed recursion
(`none` meaning the loop has not finished within the given fuel).
External numeric machinery (TF-IDF vectors, cosine similarity) is
abstracted as an explicit similarity vector handed to `search`; the
post-processing of that vector (argsort, top-k slice, positivity filter)
is embedded faithfully.
-/

/-- Python `str.isspace` characters relevant to `str.strip()` (ASCII set). -/
def isPySpace (c : Char) : Bool :=
  c = ' ' || c = '\t' || c = '\n' || c = '\r' || c = '\x0b' || c = '\x0c'

/-- Python `str.strip()` on a character list. -/
def pyStripChars (cs : List Char) : List Char :=
  ((cs.dropWhile isPySpace).reverse.dropWhile isPySpace).reverse

/-- Python `str.strip()`. -/
def pyStrip (s : String) : String :=
  String.mk (pyStripChars s.data)

/-- `pdf_reader.Page`: a PDF page number and its extracted text. -/
structure Page where
  number : Int
  text : List Char
deriving DecidableEq, Repr, Inhabited

/-- `chunker.Chunk`: a chunk of text tied to a PDF page. -/
structure Chunk where
  content : List Char
  page_number : Int
  index : Nat
deriving DecidableEq, Repr, Inhabited

instance {ε α : Type} [DecidableEq ε] [DecidableEq α] : DecidableEq (Except ε α) := fun x y =>
  match x, y with
  | Except.ok a, Except.ok b =>
    if h : a = b then isTrue (by rw [h]) else isFalse (by simp [h])
  | Except.error a, Except.error b =>
    if h : a = b then isTrue (by rw [h]) else isFalse (by simp [h])
  | Except.ok _, Except.error _ => isFalse (by simp)
  | Except.error _, Except.ok _ => isFalse (by simp)

/-- The `while start < len(text)` loop of `split_page_into_chunks`,
indexed by fuel; `none` means the loop did not terminate within `fuel`
iterations. Each iteration takes `text[start:end]` with
`end = min(len(text), start + max_characters)`, stops after emitting the
chunk whose `end` reaches the text length, and otherwise restarts from
`max(0, end - overlap)` (natural subtraction models the clamp to 0). -/
def splitGo (num : Int) (text : List Char) (maxC ov : Nat) :
    Nat → Nat → Nat → Option (List Chunk)
  | 0, _, _ => none
  | fuel + 1, start, idx =>
    if start < text.length then
      let e := min text.length (start + maxC)
      let c : Chunk := ⟨(text.drop start).take (e - start), num, idx⟩
      if e = text.length then some [c]
      else (splitGo num text maxC ov fuel (e - ov) (idx + 1)).map (fun tl => c :: tl)
    else some []

/-- `chunker.split_page_into_chunks`: validates `max_characters` and
`overlap`, returns `[]` on empty text, else runs the chunking loop.
`some (.error e)` models a raised `ValueError`, `none` a diverging loop. -/
def split_page_into_chunks (page : Page) (max_characters overlap : Int)
    (fuel : Nat) : Option (Except String (List Chunk)) :=
  if max_characters ≤ 0 then some (Except.error "max_characters must be positive")
  else if overlap < 0 then some (Except.error "overlap must be non-negative")
  else if page.text = [] then some (Except.ok [])
  else (splitGo page.number page.text max_characters.toNat overlap.toNat fuel 0 0).map Except.ok

/-- `split_page_into_chunks` with canonical fuel `len(text) + 1`, which is
(provably) enough whenever the loop terminates at all, so `none` here means
the source loop genuinely diverges. -/
def splitPage (page : Page) (max_characters overlap : Int) :
    Option (Except String (List Chunk)) :=
  split_page_into_chunks page max_characters overlap (page.text.length + 1)

/-- The chunking loop never finishes on this input, whatever the fuel. -/
def chunkerDiverges (page : Page) (max_characters overlap : Int) : Prop :=
  ∀ fuel, split_page_into_chunks page max_characters overlap fuel = none

/-- Concatenation of chunk contents with the first `ov` characters of
every chunk after the first removed. -/
def overlapJoin (ov : Nat) : List Chunk → List Char
  | [] => []
  | c :: rest => c.content ++ (rest.map (fun d => d.content.drop ov)).flatten

/-- First-match lookup in an association list with string keys
(Python dicts in this pipeline have unique keys, so first = only). -/
def alookup {β : Type} (k : String) : List (String × β) → Option β
  | [] => none
  | (k', v) :: rest => if k' = k then some v else alookup k rest

/-- Keys of an association list, in insertion order. -/
def keysOf {β : Type} (d : List (String × β)) : List String :=
  d.map Prod.fst

/-- Python `dict.setdefault(k, [])`: appends an empty entry at the end if
the key is absent (insertion order preserved, as for Python dicts). -/
def pySetdefault {β : Type} (d : List (String × List β)) (k : String) :
    List (String × List β) :=
  if k ∈ keysOf d then d else d ++ [(k, [])]

/-- Python `d[k].append(x)` on an association list whose values are lists
(appends `x` to the entry carrying key `k`; keys are unique in this
pipeline's dicts). -/
def pyAppendAt {β : Type} : List (String × List β) → String → β → List (String × List β)
  | [], _, _ => []
  | kv :: rest, k, x =>
    (if kv.1 = k then (kv.1, kv.2 ++ [x]) else kv) :: pyAppendAt rest k x

/-- The "current project" after scanning one page in
`group_pages_by_project`: the stripped label of the last regex match on the
page if that label is non-empty, otherwise the previous current project.
The per-page regex match list is abstracted as the oracle `f`. -/
def pageLabel (f : Page → List String) (cur : String) (p : Page) : String :=
  match (f p).getLast? with
  | some raw => if pyStrip raw = "" then cur else pyStrip raw
  | none => cur

/-- The heading-handling `if matches:` block of `group_pages_by_project`:
possibly creates the new label's key and updates the current project. -/
def headingUpdate (f : Page → List String) (d : List (String × List Page))
    (cur : String) (p : Page) : List (String × List Page) × String :=
  match (f p).getLast? with
  | some raw =>
    if pyStrip raw = "" then (d, cur) else (pySetdefault d (pyStrip raw), pyStrip raw)
  | none => (d, cur)

/-- The page loop of `group_pages_by_project`: per page, run the heading
update, then `projects.setdefault(current_project, []).append(page)`. -/
def group_go (f : Page → List String) :
    List Page → List (String × List Page) → String → List (String × List Page)
  | [], d, _ => d
  | p :: ps, d, cur =>
    let st := headingUpdate f d cur p
    group_go f ps (pyAppendAt (pySetdefault st.1 st.2) st.2 p) st.2

/-- `pdf_reader.group_pages_by_project`, with the regex match labels
(the stripped-to-be group-2 captures of `finditer`, in match order)
abstracted as the oracle `f`. Starts from `{default_project: []}`. -/
def group_pages_by_project (f : Page → List String) (default_project : String)
    (pages : List Page) : List (String × List Page) :=
  group_go f pages [(default_project, [])] default_project

/-- The label assigned to each page in turn by the scan (specification
device used to state the grouping theorems). -/
def labelTrace (f : Page → List String) (cur : String) : List Page → List String
  | [] => []
  | p :: ps => pageLabel f cur p :: labelTrace f (pageLabel f cur p) ps

/-- The current project after scanning a list of pages. -/
def endLabel (f : Page → List String) (cur : String) : List Page → String
  | [] => cur
  | p :: ps => endLabel f (pageLabel f cur p) ps

/-- Pages of a trace-labelled sequence carrying label `k`, in order. -/
def selPages (k : String) (ps : List Page) (tr : List String) : List Page :=
  ((ps.zip tr).filter (fun pr => decide (pr.2 = k))).map Prod.fst

/-- A Python dict value in this pipeline's metadata dicts. -/
inductive MetaVal where
  | int (i : Int)
  | str (s : String)
deriving DecidableEq, Repr, Inhabited

/-- Python `str()` of a metadata value, as used in f-string interpolation. -/
def MetaVal.render : MetaVal → String
  | MetaVal.int i => toString i
  | MetaVal.str s => s

/-- Python `{**a, **b}`: `a`'s keys in order with values overridden by `b`
where present, then `b`'s new keys in order. -/
def pyDictUnion (a b : List (String × MetaVal)) : List (String × MetaVal) :=
  a.map (fun kv => (kv.1, (alookup kv.1 b).getD kv.2))
    ++ b.filter (fun kv => (alookup kv.1 a).isNone)

/-- `index.Document`: an index-ready unit of content plus metadata. -/
structure Document where
  content : List Char
  metadata : List (String × MetaVal)
deriving DecidableEq, Repr, Inhabited

/-- `index.SearchResult`: a search hit with relevance score (score as ℚ,
abstracting the float cosine similarity). -/
structure SearchResult where
  document : Document
  score : ℚ
deriving DecidableEq, Repr, Inhabited

/-- `index.DocumentIndex`: the indexed document list (the fitted TF-IDF
vector space is abstracted away; queries are answered against an explicit
similarity vector). -/
structure DocumentIndex where
  documents : List Document
deriving DecidableEq, Repr, Inhabited

/-- `DocumentIndex.__init__`: rejects an empty document sequence. -/
def DocumentIndex.make (documents : List Document) : Except String DocumentIndex :=
  if documents = [] then Except.error "DocumentIndex requires at least one document"
  else Except.ok ⟨documents⟩

/-- Characterization of every output `np.argsort(similarities)` may
produce: a permutation of the index range, weakly ascending by
similarity. numpy's default `kind='quicksort'` guarantees only the
ascending order — it is documented as not stable, so the order among
equal similarities is unspecified. Ranking theorems therefore quantify
over every such output. -/
def isArgsortAsc (s : List ℚ) (order : List Nat) : Prop :=
  List.Perm order (List.range s.length) ∧
  List.Pairwise (fun i j => s.getD i 0 ≤ s.getD j 0) order

/-- Strict order on indices used by one concrete valid argsort (below):
smaller score first, equal scores by smaller original index. -/
def rankLT (s : List ℚ) (i j : Nat) : Prop :=
  s.getD i 0 < s.getD j 0 ∨ (s.getD i 0 = s.getD j 0 ∧ i < j)

instance (s : List ℚ) (i j : Nat) : Decidable (rankLT s i j) := by
  unfold rankLT; infer_instance

/-- Insertion step of the executable ascending argsort below. -/
def insertIdx (s : List ℚ) (i : Nat) : List Nat → List Nat
  | [] => [i]
  | j :: rest => if rankLT s i j then i :: j :: rest else j :: insertIdx s i rest

/-- One concrete valid `np.argsort` output, kept executable for concrete
evaluation: an ascending insertion argsort (this is also numpy's actual
behavior below its insertion-sort cutoff). The real program's tie order
is unspecified (`np.argsort` default quicksort is not stable), so no
theorem relies on the tie order this particular instantiation happens to
produce: ranking theorems are stated over every `isArgsortAsc` output. -/
def argsortAsc (s : List ℚ) : List Nat :=
  (List.range s.length).foldr (insertIdx s) []

/-- `np.argsort(similarities)[::-1]`: the ascending argsort, reversed. -/
def argsortDesc (s : List ℚ) : List Nat :=
  (argsortAsc s).reverse

/-- The selected document indices of `DocumentIndex.search`: top-`k` slice
of the descending argsort, keeping only strictly positive similarities. -/
def searchIdxs (similarities : List ℚ) (top_k : Nat) : List Nat :=
  ((argsortDesc similarities).take top_k).filter
    (fun i => decide (0 < similarities.getD i 0))

/-- `DocumentIndex.search`: blank queries (empty after `strip`) yield `[]`;
otherwise the similarity vector (abstracting
`cosine_similarity(vectorizer.transform([query]), matrix)`) is argsorted
descending, sliced to `top_k`, filtered to positive scores, and each kept
index is wrapped as a `SearchResult`. -/
def DocumentIndex.search (idx : DocumentIndex) (similarities : List ℚ)
    (query : String) (top_k : Nat) : List SearchResult :=
  if pyStrip query = "" then []
  else (searchIdxs similarities top_k).map
    (fun i => ⟨idx.documents.getD i default, similarities.getD i 0⟩)

/-- The search post-processing applied to an arbitrary ascending argsort
output `order` (blank-query check, reverse, top-`k` slice, positivity
filter, wrapping). `DocumentIndex.search` is definitionally the
instantiation of this family at the executable `argsortAsc`; stating
ranking theorems over every `isArgsortAsc` order avoids attributing any
particular tie order to the program. -/
def searchWith (idx : DocumentIndex) (similarities : List ℚ) (order : List Nat)
    (query : String) (top_k : Nat) : List SearchResult :=
  if pyStrip query = "" then []
  else ((order.reverse.take top_k).filter
      (fun i => decide (0 < similarities.getD i 0))).map
    (fun i => ⟨idx.documents.getD i default, similarities.getD i 0⟩)

/-- `DocumentIndex.score_to_confidence`: 0 for non-positive scores, else a
logistic curve centred at 0.25 with steepness 6 (float arithmetic modelled
over ℝ). -/
noncomputable def DocumentIndex.score_to_confidence (score : ℝ) : ℝ :=
  if score ≤ 0 then 0 else 1 / (1 + Real.exp (-6 * (score - 0.25)))

/-- `agent.SourceAttribution`: origin of a piece of evidence. -/
structure SourceAttribution where
  page_number : MetaVal
  score : ℚ
  excerpt : List Char
deriving DecidableEq, Repr, Inhabited

/-- `agent.AgentAnswer`: the per-project answer (confidence as ℚ, see
`Agent.answerProject` for the abstraction). -/
structure AgentAnswer where
  project : String
  answer : String
  confidence : ℚ
  sources : List SourceAttribution
deriving DecidableEq, Repr, Inhabited

/-- The external generation backend (`GeminiClient`): `build_prompt` and
`generate` abstracted as oracles; `generate` returns the response text. -/
structure GeminiOracle where
  build_prompt : String → String → Option String → String
  generate : String → String

/-- The fixed no-information answer text of `Agent.answer`. -/
def noInfoAnswer : String := "Aucune information pertinente trouvée dans ce projet."

/-- Python `max()` over a non-empty list (the `[]` case is unreachable at
its call site in `Agent.answerProject`). -/
def pyMax : List ℚ → ℚ
  | [] => 0
  | c :: cs => cs.foldl max c

/-- `Agent._build_context`: one block per result, labelled with the page
number (metadata default `"?"`) and the formatted score (float `:.2f`
formatting abstracted as `fmt`), followed by the stripped chunk text;
blocks joined by blank lines. -/
def build_context (fmt : ℚ → String) (results : List SearchResult) : String :=
  String.intercalate "\n\n" (results.map (fun r =>
    "[Page " ++ ((alookup "page_number" r.document.metadata).getD (MetaVal.str "?")).render
      ++ " | Score " ++ fmt r.score ++ "]\n"
      ++ String.mk (pyStripChars r.document.content)))

/-- The body of the per-project loop of `Agent.answer`. The similarity
vector for this project's index is `sims`;
`index.score_to_confidence` (a float map) is abstracted as `conf`. The
second component instruments the number of `gemini.generate` calls made
for this project (0 or 1). -/
def Agent.answerProject (g : GeminiOracle) (conf : ℚ → ℚ) (fmt : ℚ → String)
    (question : String) (instructions : Option String) (top_k : Nat)
    (sims : List ℚ) (project : String) (index : DocumentIndex) :
    AgentAnswer × Nat :=
  let search_results := index.search sims question top_k
  if search_results = [] then
    ({ project := project, answer := noInfoAnswer, confidence := 0, sources := [] }, 0)
  else
    let context := build_context fmt search_results
    let prompt := g.build_prompt question context instructions
    let raw_response := g.generate prompt
    let confidence := pyMax (search_results.map (fun r => conf r.score))
    let sources := search_results.map (fun r =>
      { page_number := (alookup "page_number" r.document.metadata).getD (MetaVal.int (-1))
        score := r.score
        excerpt := pyStripChars (r.document.content.take 300) : SourceAttribution })
    ({ project := project, answer := pyStrip raw_response,
       confidence := confidence, sources := sources }, 1)

/-- `agent.Agent`: the per-project indexes, in construction order. -/
structure Agent where
  project_indexes : List (String × DocumentIndex)
deriving DecidableEq, Repr

/-- `Agent.answer`: one `AgentAnswer` per project, in index construction
order, each paired with its instrumented backend-call count. `simsOf`
gives each project's similarity vector for the question. -/
def Agent.answer (a : Agent) (g : GeminiOracle) (conf : ℚ → ℚ) (fmt : ℚ → String)
    (simsOf : String → List ℚ) (question : String) (instructions : Option String)
    (top_k : Nat) : List (AgentAnswer × Nat) :=
  a.project_indexes.map (fun pi =>
    Agent.answerProject g conf fmt question instructions top_k (simsOf pi.1) pi.1 pi.2)

/-- `pdf_reader.iter_project_pages`: `(project, page)` pairs in group
order. -/
def iter_project_pages (projects : List (String × List Page)) :
    List (String × Page) :=
  projects.flatMap (fun pr => pr.2.map (fun p => (pr.1, p)))

/-- `chunker.iter_chunks_by_project`: chunks each page and tags the chunks
with the originating project; propagates `ValueError`s and divergence. -/
def iter_chunks_by_project :
    List (String × Page) → Int → Int → Option (Except String (List (String × Chunk)))
  | [], _, _ => some (Except.ok [])
  | (proj, page) :: rest, maxC, ov =>
    match splitPage page maxC ov with
    | none => none
    | some (Except.error e) => some (Except.error e)
    | some (Except.ok cs) =>
      match iter_chunks_by_project rest maxC ov with
      | none => none
      | some (Except.error e) => some (Except.error e)
      | some (Except.ok tail) => some (Except.ok (cs.map (fun c => (proj, c)) ++ tail))

/-- The metadata tuple `Agent.from_pages` builds for each chunk. -/
def chunkTuple (pc : String × Chunk) :
    List Char × String × List (String × MetaVal) :=
  (pc.2.content, pc.1,
    [("page_number", MetaVal.int pc.2.page_number),
     ("chunk_index", MetaVal.int (pc.2.index : Int))])

/-- `index.build_documents`: one `Document` per tuple with metadata
`{"project": project, **metadata}`. -/
def build_documents (chunks : List (List Char × String × List (String × MetaVal))) :
    List Document :=
  chunks.map (fun t =>
    { content := t.1, metadata := pyDictUnion [("project", MetaVal.str t.2.1)] t.2.2 })

/-- `document.metadata["project"]` (always present with a string value for
documents built by this pipeline). -/
def metaProjectStr (doc : Document) : String :=
  match alookup "project" doc.metadata with
  | some (MetaVal.str s) => s
  | _ => ""

/-- The `project_documents.setdefault(...).append(document)` loop of
`Agent.from_pages`. -/
def groupDocs : List Document → List (String × List Document) → List (String × List Document)
  | [], acc => acc
  | doc :: rest, acc =>
    groupDocs rest (pyAppendAt (pySetdefault acc (metaProjectStr doc)) (metaProjectStr doc) doc)

/-- The `{project: DocumentIndex(docs) for ... if docs}` comprehension of
`Agent.from_pages`: skips empty document lists, builds an index per
project (propagating the constructor's error, which the guard makes
unreachable). -/
def buildIndexes :
    List (String × List Document) → Except String (List (String × DocumentIndex))
  | [] => Except.ok []
  | (p, docs) :: rest =>
    if docs = [] then buildIndexes rest
    else
      match DocumentIndex.make docs with
      | Except.error e => Except.error e
      | Except.ok i =>
        match buildIndexes rest with
        | Except.error e => Except.error e
        | Except.ok tail => Except.ok ((p, i) :: tail)

/-- `Agent.from_pages`: chunk every page of every project, build documents
with project/page/chunk metadata, group them by project and build one
index per non-empty project. -/
def Agent.from_pages (pages_by_project : List (String × List Page))
    (chunk_size overlap : Int) : Option (Except String Agent) :=
  match iter_chunks_by_project (iter_project_pages pages_by_project) chunk_size overlap with
  | none => none
  | some (Except.error e) => some (Except.error e)
  | some (Except.ok chunks) =>
    let documents := build_documents (chunks.map chunkTuple)
    let project_documents := groupDocs documents []
    match buildIndexes project_documents with
    | Except.error e => some (Except.error e)
    | Except.ok pidx => some (Except.ok { project_indexes := pidx })

/-- `Agent.from_pdf` after page extraction with no section filter: group
the loaded pages by project, then run the same document/index pipeline as
`Agent.from_pages` (PDF loading itself is external I/O and stays outside
the embedding). -/
def Agent.from_pdf_grouped (f : Page → List String) (default_project : String)
    (pages : List Page) (chunk_size overlap : Int) : Option (Except String Agent) :=
  Agent.from_pages (group_pages_by_project f default_project pages) chunk_size overlap

/-! ## Chunker lemmas -/

theorem splitGo_sound (num : Int) (text : List Char) (maxC ov : Nat)
    (hov : ov < maxC) :
    ∀ fuel start idx l, start < text.length →
      splitGo num text maxC ov fuel start idx = some l →
      ∃ c tl, l = c :: tl ∧
        c.content = (text.drop start).take (min (text.length - start) maxC) ∧
        overlapJoin ov l = text.drop start ∧
        l.length ≤ text.length - start := by
  intro fuel
  induction fuel with
  | zero =>
    intro start idx l _ h
    simp [splitGo] at h
  | succ n ih =>
    intro start idx l hs h
    simp only [splitGo, if_pos hs] at h
    by_cases he : min text.length (start + maxC) = text.length
    · rw [if_pos he] at h
      have hl : l = [⟨(text.drop start).take (min text.length (start + maxC) - start), num, idx⟩] := by
        cases h; rfl
      subst hl
      refine ⟨_, [], rfl, ?_, ?_, ?_⟩
      · have : min text.length (start + maxC) - start = min (text.length - start) maxC := by
          omega
        rw [this]
      · have hmin : min text.length (start + maxC) - start = text.length - start := by omega
        simp only [overlapJoin, List.map_nil, List.flatten_nil, List.append_nil, hmin]
        have hlen : (text.drop start).length = text.length - start := List.length_drop start text
        rw [← hlen, List.take_length]
      · simp; omega
    · rw [if_neg he] at h
      obtain ⟨tl', htl', hcons⟩ := Option.map_eq_some'.mp h
      have hee : min text.length (start + maxC) = start + maxC := by omega
      have hlt : start + maxC < text.length := by omega
      have hs' : min text.length (start + maxC) - ov < text.length := by omega
      obtain ⟨c', tl'', hsplit, hcontent, hjoin, hlen⟩ := ih _ _ _ hs' htl'
      refine ⟨_, tl', hcons.symm, ?_, ?_, ?_⟩
      · have : min text.length (start + maxC) - start = min (text.length - start) maxC := by
          omega
        rw [this]
      · -- overlapJoin of the cons
        subst hcons
        have hstart' : min text.length (start + maxC) - ov = start + maxC - ov := by omega
        rw [hstart'] at hcontent hjoin hlen
        have hclen : c'.content.length = min maxC (text.length - (start + maxC - ov)) := by
          rw [hcontent]
          rw [List.length_take, List.length_drop]
          omega
        have hovle : ov ≤ c'.content.length := by
          rw [hclen]; omega
        subst hsplit
        simp only [overlapJoin, List.map_cons, List.flatten_cons] at hjoin ⊢
        have hdrop : c'.content.drop ov ++ (tl''.map (fun d => d.content.drop ov)).flatten
            = (c'.content ++ (tl''.map (fun d => d.content.drop ov)).flatten).drop ov := by
          rw [List.drop_append_of_le_length hovle]
        rw [hdrop, hjoin]
        rw [List.drop_drop]
        have harith : start + maxC - ov + ov = start + maxC := by omega
        rw [harith]
        have h1 : min text.length (start + maxC) - start = maxC := by omega
        rw [h1]
        have h2 : text.drop (start + maxC) = (text.drop start).drop maxC := by
          rw [List.drop_drop]
        rw [h2, List.take_append_drop]
      · subst hcons
        simp only [List.length_cons]
        omega

theorem splitGo_terminates (num : Int) (text : List Char) (maxC ov : Nat)
    (hov : ov < maxC) :
    ∀ fuel start idx, text.length - start < fuel →
      ∃ l, splitGo num text maxC ov fuel start idx = some l := by
  intro fuel
  induction fuel with
  | zero =>
    intro start idx hlt
    omega
  | succ n ih =>
    intro start idx hlt
    by_cases hs : start < text.length
    · by_cases he : min text.length (start + maxC) = text.length
      · refine ⟨[⟨(text.drop start).take (min text.length (start + maxC) - start), num, idx⟩], ?_⟩
        simp only [splitGo, if_pos hs, if_pos he]
      · obtain ⟨l, hl⟩ := ih (min text.length (start + maxC) - ov) (idx + 1) (by omega)
        refine ⟨⟨(text.drop start).take (min text.length (start + maxC) - start), num, idx⟩ :: l, ?_⟩
        simp only [splitGo, if_pos hs, if_neg he, hl, Option.map_some']
    · exact ⟨[], by simp [splitGo, hs]⟩

theorem splitGo_ab_diverges :
    ∀ fuel idx, splitGo 1 ['a', 'b'] 1 1 fuel 0 idx = none := by
  intro fuel
  induction fuel with
  | zero => intro idx; simp [splitGo]
  | succ n ih =>
    intro idx
    simp only [splitGo]
    norm_num
    exact ih (idx + 1)

/-- C1: for non-empty text, `max_characters > 0` and
`0 ≤ overlap < max_characters`, the chunks returned by
`split_page_into_chunks`, concatenated with the first `overlap` characters
of every chunk after the first removed, reconstruct the page text. -/
theorem split_chunks_reconstruct (page : Page) (max_characters overlap : Int)
    (fuel : Nat) (l : List Chunk)
    (hmax : 0 < max_characters) (hov0 : 0 ≤ overlap)
    (hov : overlap < max_characters) (hne : page.text ≠ [])
    (h : split_page_into_chunks page max_characters overlap fuel = some (Except.ok l)) :
    overlapJoin overlap.toNat l = page.text := by
  unfold split_page_into_chunks at h
  rw [if_neg (by omega), if_neg (by omega), if_neg hne] at h
  obtain ⟨l', hl', heq⟩ := Option.map_eq_some'.mp h
  have hll : l' = l := by cases heq; rfl
  subst hll
  have hpos : 0 < page.text.length := List.length_pos.mpr hne
  have hovlt : overlap.toNat < max_characters.toNat := by omega
  obtain ⟨c, tl, -, -, hjoin, -⟩ :=
    splitGo_sound page.number page.text max_characters.toNat overlap.toNat hovlt
      fuel 0 0 l' hpos hl'
  simpa using hjoin

/-- C1 witness at a concrete input. -/
theorem split_chunks_reconstruct_witness :
    overlapJoin 1 [⟨['a', 'b', 'c'], 1, 0⟩, ⟨['c', 'd'], 1, 1⟩] = ['a', 'b', 'c', 'd'] :=
  split_chunks_reconstruct ⟨1, ['a', 'b', 'c', 'd']⟩ 3 1 5
    [⟨['a', 'b', 'c'], 1, 0⟩, ⟨['c', 'd'], 1, 1⟩]
    (by decide) (by decide) (by decide) (by decide) (by decide)

/-- C2 counterexample: with `max_characters = 1` and `overlap = 1` — a
configuration the argument checks accept — the chunking loop never
terminates on the two-character page `"ab"` (the cursor stalls at 0). -/
theorem split_diverges_counterexample : chunkerDiverges ⟨1, ['a', 'b']⟩ 1 1 := by
  intro fuel
  unfold split_page_into_chunks
  rw [if_neg (by norm_num), if_neg (by norm_num), if_neg (by simp)]
  have : (1 : Int).toNat = 1 := rfl
  simp only [this]
  rw [splitGo_ab_diverges fuel 0]
  rfl

/-- C2 amended: under `max_characters > 0` and
`0 ≤ overlap < max_characters` the loop terminates (fuel `len + 1`
suffices) and the number of chunks is bounded by the text length. -/
theorem split_terminates_of_overlap_lt (page : Page) (max_characters overlap : Int)
    (hmax : 0 < max_characters) (hov0 : 0 ≤ overlap)
    (hov : overlap < max_characters) :
    ∃ l, split_page_into_chunks page max_characters overlap (page.text.length + 1)
        = some (Except.ok l) ∧ l.length ≤ page.text.length := by
  unfold split_page_into_chunks
  rw [if_neg (by omega), if_neg (by omega)]
  by_cases hemp : page.text = []
  · exact ⟨[], by rw [if_pos hemp], by simp⟩
  · rw [if_neg hemp]
    have hpos : 0 < page.text.length := List.length_pos.mpr hemp
    have hmaxn : 0 < max_characters.toNat := by omega
    have hovn : overlap.toNat < max_characters.toNat := by omega
    obtain ⟨l, hl⟩ := splitGo_terminates page.number page.text
      max_characters.toNat overlap.toNat hovn (page.text.length + 1) 0 0 (by omega)
    obtain ⟨c, tl, -, -, -, hlen⟩ :=
      splitGo_sound page.number page.text max_characters.toNat overlap.toNat hovn
        (page.text.length + 1) 0 0 l hpos hl
    exact ⟨l, by rw [hl]; rfl, by omega⟩

/-- C2 witness at a concrete input. -/
theorem split_terminates_of_overlap_lt_witness :
    ∃ l, split_page_into_chunks ⟨1, ['a', 'b', 'c']⟩ 2 1 4 = some (Except.ok l) ∧
      l.length ≤ 3 :=
  split_terminates_of_overlap_lt ⟨1, ['a', 'b', 'c']⟩ 2 1
    (by decide) (by decide) (by decide)

/-- C3 counterexample: `overlap = 1 ≥ 1 = max_characters` is accepted:
no invalid-argument error is raised and a chunk is produced. -/
theorem split_accepts_overlap_ge_max :
    split_page_into_chunks ⟨1, ['a']⟩ 1 1 2 = some (Except.ok [⟨['a'], 1, 0⟩]) := by
  decide

/-- C3 amended: `split_page_into_chunks` rejects non-positive
`max_characters` and negative `overlap` with the corresponding
invalid-argument error (checked before any chunking work); a
configuration with `max_characters > 0` and `overlap ≥ 0` — including
`overlap ≥ max_characters`, which is not rejected — never raises an
error; and a page with empty text yields the empty chunk sequence. -/
theorem split_validation_amended :
    (∀ (page : Page) (maxc ov : Int) (fuel : Nat), maxc ≤ 0 →
      split_page_into_chunks page maxc ov fuel
        = some (Except.error "max_characters must be positive")) ∧
    (∀ (page : Page) (maxc ov : Int) (fuel : Nat), 0 < maxc → ov < 0 →
      split_page_into_chunks page maxc ov fuel
        = some (Except.error "overlap must be non-negative")) ∧
    (∀ (page : Page) (maxc ov : Int) (fuel : Nat) (e : String), 0 < maxc → 0 ≤ ov →
      split_page_into_chunks page maxc ov fuel ≠ some (Except.error e)) ∧
    (∀ (page : Page) (maxc ov : Int) (fuel : Nat), 0 < maxc → 0 ≤ ov →
      page.text = [] →
      split_page_into_chunks page maxc ov fuel = some (Except.ok [])) := by
  refine ⟨?_, ?_, ?_, ?_⟩
  · intro page maxc ov fuel hm
    unfold split_page_into_chunks
    rw [if_pos hm]
  · intro page maxc ov fuel hm hov
    unfold split_page_into_chunks
    rw [if_neg (by omega), if_pos hov]
  · intro page maxc ov fuel e hm hov
    unfold split_page_into_chunks
    rw [if_neg (by omega), if_neg (by omega)]
    by_cases hemp : page.text = []
    · rw [if_pos hemp]; simp
    · rw [if_neg hemp]
      cases splitGo page.number page.text maxc.toNat ov.toNat fuel 0 0 <;> simp
  · intro page maxc ov fuel hm hov hemp
    unfold split_page_into_chunks
    rw [if_neg (by omega), if_neg (by omega), if_pos hemp]

/-- C3 witness at concrete inputs. -/
theorem split_validation_amended_witness :
    split_page_into_chunks ⟨1, ['a']⟩ 0 0 3
      = some (Except.error "max_characters must be positive") ∧
    split_page_into_chunks ⟨1, ['a']⟩ 1 (-1) 3
      = some (Except.error "overlap must be non-negative") ∧
    split_page_into_chunks ⟨1, ['a']⟩ 1 0 3 ≠ some (Except.error "boom") ∧
    split_page_into_chunks ⟨1, []⟩ 1 0 3 = some (Except.ok []) :=
  ⟨split_validation_amended.1 ⟨1, ['a']⟩ 0 0 3 (by decide),
   split_validation_amended.2.1 ⟨1, ['a']⟩ 1 (-1) 3 (by decide) (by decide),
   split_validation_amended.2.2.1 ⟨1, ['a']⟩ 1 0 3 "boom" (by decide) (by decide),
   split_validation_amended.2.2.2 ⟨1, []⟩ 1 0 3 (by decide) (by decide) rfl⟩

/-! ## Association-list lemmas -/

theorem keysOf_nil {β : Type} : keysOf ([] : List (String × β)) = [] := rfl

theorem keysOf_cons {β : Type} (kv : String × β) (d : List (String × β)) :
    keysOf (kv :: d) = kv.1 :: keysOf d := rfl

theorem keysOf_append {β : Type} (d e : List (String × β)) :
    keysOf (d ++ e) = keysOf d ++ keysOf e :=
  List.map_append Prod.fst d e

theorem alookup_cons {β : Type} (k : String) (kv : String × β) (d : List (String × β)) :
    alookup k (kv :: d) = if kv.1 = k then some kv.2 else alookup k d := rfl

theorem alookup_none_of_not_mem {β : Type} (k : String) :
    ∀ d : List (String × β), k ∉ keysOf d → alookup k d = none := by
  intro d
  induction d with
  | nil => intro _; rfl
  | cons kv rest ih =>
    intro h
    rw [keysOf_cons] at h
    have h1 : kv.1 ≠ k := fun he => h (by rw [he]; exact List.mem_cons_self _ _)
    have h2 : k ∉ keysOf rest := fun hm => h (List.mem_cons_of_mem _ hm)
    rw [alookup_cons, if_neg h1, ih h2]

theorem alookup_isSome_of_mem_keys {β : Type} (k : String) :
    ∀ d : List (String × β), k ∈ keysOf d → ∃ v, alookup k d = some v := by
  intro d
  induction d with
  | nil => intro h; simp [keysOf_nil] at h
  | cons kv rest ih =>
    intro h
    rw [alookup_cons]
    by_cases h1 : kv.1 = k
    · exact ⟨kv.2, by rw [if_pos h1]⟩
    · rw [keysOf_cons] at h
      rcases List.mem_cons.mp h with h2 | h2
      · exact absurd h2.symm h1
      · obtain ⟨v, hv⟩ := ih h2
        exact ⟨v, by rw [if_neg h1, hv]⟩

theorem alookup_append {β : Type} (k : String) (d e : List (String × β)) :
    alookup k (d ++ e)
      = match alookup k d with
        | some v => some v
        | none => alookup k e := by
  induction d with
  | nil => simp [alookup]
  | cons kv rest ih =>
    rw [List.cons_append, alookup_cons, alookup_cons]
    by_cases h1 : kv.1 = k
    · rw [if_pos h1, if_pos h1]
    · rw [if_neg h1, if_neg h1, ih]

theorem alookup_setdefault {β : Type} (d : List (String × List β)) (c k : String) :
    alookup k (pySetdefault d c)
      = if k = c then some ((alookup c d).getD []) else alookup k d := by
  unfold pySetdefault
  by_cases hm : c ∈ keysOf d
  · rw [if_pos hm]
    by_cases hk : k = c
    · subst hk
      obtain ⟨v, hv⟩ := alookup_isSome_of_mem_keys k d hm
      rw [hv, if_pos rfl]
      rfl
    · rw [if_neg hk]
  · rw [if_neg hm, alookup_append]
    have hc : alookup c d = none := alookup_none_of_not_mem c d hm
    by_cases hk : k = c
    · subst hk
      rw [hc]
      simp [alookup]
    · have hke : alookup k [(c, ([] : List β))] = none := by
        rw [alookup_cons, if_neg (fun h => hk h.symm)]
        rfl
      rw [hke, if_neg hk]
      cases alookup k d <;> rfl

theorem alookup_pyAppendAt {β : Type} (c k : String) (x : β) :
    ∀ d : List (String × List β),
      alookup k (pyAppendAt d c x)
        = if k = c then (alookup k d).map (fun v => v ++ [x]) else alookup k d := by
  intro d
  induction d with
  | nil => by_cases hk : k = c <;> simp [pyAppendAt, alookup, hk]
  | cons kv rest ih =>
    obtain ⟨a, b⟩ := kv
    show alookup k ((if a = c then (a, b ++ [x]) else (a, b)) :: pyAppendAt rest c x)
        = if k = c then (alookup k ((a, b) :: rest)).map (fun v => v ++ [x])
          else alookup k ((a, b) :: rest)
    by_cases hac : a = c
    · by_cases hak : a = k
      · subst hac; subst hak
        simp [alookup_cons]
      · subst hac
        have hka : ¬ k = a := fun h => hak h.symm
        simp [alookup_cons, hak, hka, ih]
    · by_cases hak : a = k
      · subst hak
        have hkc : ¬ a = c := hac
        simp [alookup_cons, hkc]
      · simp [alookup_cons, hac, hak, ih]

/-! ## Grouping lemmas -/

theorem keysOf_pyAppendAt {β : Type} (c : String) (x : β) :
    ∀ d : List (String × List β), keysOf (pyAppendAt d c x) = keysOf d := by
  intro d
  induction d with
  | nil => rfl
  | cons kv rest ih =>
    show keysOf ((if kv.1 = c then (kv.1, kv.2 ++ [x]) else kv) :: pyAppendAt rest c x) = _
    by_cases h : kv.1 = c <;> simp [keysOf_cons, h, ih]

theorem pyAppendAt_of_not_mem {β : Type} (c : String) (x : β) :
    ∀ d : List (String × List β), c ∉ keysOf d → pyAppendAt d c x = d := by
  intro d
  induction d with
  | nil => intro _; rfl
  | cons kv rest ih =>
    intro h
    rw [keysOf_cons] at h
    have h1 : kv.1 ≠ c := fun he => h (by rw [he]; exact List.mem_cons_self _ _)
    have h2 : c ∉ keysOf rest := fun hm => h (List.mem_cons_of_mem _ hm)
    show (if kv.1 = c then (kv.1, kv.2 ++ [x]) else kv) :: pyAppendAt rest c x = kv :: rest
    rw [if_neg h1, ih h2]

theorem mem_keysOf_pySetdefault_self {β : Type} (d : List (String × List β)) (c : String) :
    c ∈ keysOf (pySetdefault d c) := by
  unfold pySetdefault
  by_cases h : c ∈ keysOf d
  · rw [if_pos h]; exact h
  · rw [if_neg h, keysOf_append]
    exact List.mem_append_right _ (List.mem_cons_self _ _)

theorem mem_keysOf_pySetdefault_of_mem {β : Type} (d : List (String × List β)) (c k : String)
    (h : k ∈ keysOf d) : k ∈ keysOf (pySetdefault d c) := by
  unfold pySetdefault
  by_cases hm : c ∈ keysOf d
  · rw [if_pos hm]; exact h
  · rw [if_neg hm, keysOf_append]
    exact List.mem_append_left _ h

theorem keysOf_pySetdefault_nodup {β : Type} (d : List (String × List β)) (c : String)
    (h : (keysOf d).Nodup) : (keysOf (pySetdefault d c)).Nodup := by
  unfold pySetdefault
  by_cases hm : c ∈ keysOf d
  · rw [if_pos hm]; exact h
  · rw [if_neg hm, keysOf_append]
    rw [List.nodup_append]
    refine ⟨h, by simp [keysOf], ?_⟩
    intro a ha hb
    simp [keysOf] at hb
    subst hb
    exact hm ha

theorem flatten_snd_pySetdefault {β : Type} (d : List (String × List β)) (c : String) :
    ((pySetdefault d c).map Prod.snd).flatten = (d.map Prod.snd).flatten := by
  unfold pySetdefault
  by_cases hm : c ∈ keysOf d
  · rw [if_pos hm]
  · rw [if_neg hm]
    simp

theorem flatten_snd_pyAppendAt {β : Type} (c : String) (x : β) :
    ∀ d : List (String × List β), (keysOf d).Nodup → c ∈ keysOf d →
      List.Perm ((pyAppendAt d c x).map Prod.snd).flatten
        ((d.map Prod.snd).flatten ++ [x]) := by
  intro d
  induction d with
  | nil => intro _ h; simp [keysOf_nil] at h
  | cons kv rest ih =>
    intro hnd hmem
    rw [keysOf_cons] at hnd hmem
    have hnd1 : kv.1 ∉ keysOf rest := (List.nodup_cons.mp hnd).1
    have hnd2 : (keysOf rest).Nodup := (List.nodup_cons.mp hnd).2
    show List.Perm (((if kv.1 = c then (kv.1, kv.2 ++ [x]) else kv) :: pyAppendAt rest c x).map
        Prod.snd).flatten _
    by_cases hc : kv.1 = c
    · have hrest : pyAppendAt rest c x = rest := pyAppendAt_of_not_mem c x rest (hc ▸ hnd1)
      rw [if_pos hc, hrest]
      simp only [List.map_cons, List.flatten_cons, List.append_assoc]
      exact List.Perm.append_left kv.2 (List.perm_append_comm)
    · have hmem' : c ∈ keysOf rest := by
        rcases List.mem_cons.mp hmem with h | h
        · exact absurd h.symm hc
        · exact h
      rw [if_neg hc]
      simp only [List.map_cons, List.flatten_cons, List.append_assoc]
      exact List.Perm.append_left kv.2 (ih hnd2 hmem')

theorem headingUpdate_snd (f : Page → List String) (d : List (String × List Page))
    (cur : String) (p : Page) :
    (headingUpdate f d cur p).2 = pageLabel f cur p := by
  unfold headingUpdate pageLabel
  cases (f p).getLast? with
  | none => rfl
  | some raw => by_cases h : pyStrip raw = "" <;> simp [h]

theorem headingUpdate_fst_flatten (f : Page → List String) (d : List (String × List Page))
    (cur : String) (p : Page) :
    (((headingUpdate f d cur p).1.map Prod.snd)).flatten = (d.map Prod.snd).flatten := by
  cases hfp : (f p).getLast? with
  | none => simp [headingUpdate, hfp]
  | some raw =>
    by_cases h : pyStrip raw = ""
    · simp [headingUpdate, hfp, h]
    · simp only [headingUpdate, hfp]
      rw [if_neg h]
      exact flatten_snd_pySetdefault d (pyStrip raw)

theorem headingUpdate_fst_keys_nodup (f : Page → List String) (d : List (String × List Page))
    (cur : String) (p : Page) (h : (keysOf d).Nodup) :
    (keysOf (headingUpdate f d cur p).1).Nodup := by
  cases hfp : (f p).getLast? with
  | none => simpa [headingUpdate, hfp] using h
  | some raw =>
    by_cases he : pyStrip raw = ""
    · simpa [headingUpdate, hfp, he] using h
    · simp only [headingUpdate, hfp]
      rw [if_neg he]
      exact keysOf_pySetdefault_nodup d (pyStrip raw) h

theorem group_step_alookup (f : Page → List String) (d : List (String × List Page))
    (cur : String) (p : Page) (k : String) :
    alookup k (pyAppendAt (pySetdefault (headingUpdate f d cur p).1 (pageLabel f cur p))
        (pageLabel f cur p) p)
      = if k = pageLabel f cur p then some (((alookup k d).getD []) ++ [p])
        else alookup k d := by
  have base : ∀ (d0 : List (String × List Page)) (c : String),
      alookup k (pyAppendAt (pySetdefault d0 c) c p)
        = if k = c then some (((alookup k d0).getD []) ++ [p]) else alookup k d0 := by
    intro d0 c
    rw [alookup_pyAppendAt, alookup_setdefault]
    by_cases hk : k = c
    · subst hk
      rw [if_pos rfl, if_pos rfl, if_pos rfl]
      rfl
    · rw [if_neg hk, if_neg hk, if_neg hk]
  unfold headingUpdate pageLabel
  cases (f p).getLast? with
  | none => exact base d cur
  | some raw =>
    by_cases he : pyStrip raw = ""
    · simp only [if_pos he]
      exact base d cur
    · simp only [if_neg he]
      rw [base (pySetdefault d (pyStrip raw)) (pyStrip raw)]
      by_cases hk : k = pyStrip raw
      · subst hk
        rw [if_pos rfl, if_pos rfl, alookup_setdefault, if_pos rfl]
        rfl
      · rw [if_neg hk, if_neg hk, alookup_setdefault, if_neg hk]

theorem selPages_nil_left (k : String) (tr : List String) : selPages k [] tr = [] := by
  simp [selPages]

theorem selPages_cons (k : String) (p : Page) (ps : List Page) (t : String)
    (tr : List String) :
    selPages k (p :: ps) (t :: tr)
      = if t = k then p :: selPages k ps tr else selPages k ps tr := by
  simp only [selPages, List.zip_cons_cons, List.filter_cons]
  by_cases h : t = k <;> simp [h]

theorem selPages_sublist (k : String) :
    ∀ (ps : List Page) (tr : List String), List.Sublist (selPages k ps tr) ps := by
  intro ps
  induction ps with
  | nil => intro tr; simp [selPages]
  | cons p ps ih =>
    intro tr
    cases tr with
    | nil => simp [selPages]
    | cons t tr =>
      rw [selPages_cons]
      by_cases h : t = k
      · rw [if_pos h]
        exact List.Sublist.cons₂ p (ih tr)
      · rw [if_neg h]
        exact List.Sublist.cons p (ih tr)

theorem mem_selPages (k : String) (ps : List Page) (tr : List String) (x : Page)
    (h : (x, k) ∈ ps.zip tr) : x ∈ selPages k ps tr := by
  unfold selPages
  exact List.mem_map.mpr ⟨(x, k), List.mem_filter.mpr ⟨h, by simp⟩, rfl⟩

theorem group_go_alookup (f : Page → List String) :
    ∀ (ps : List Page) (d : List (String × List Page)) (cur : String) (k : String),
      alookup k (group_go f ps d cur)
        = match alookup k d with
          | some old => some (old ++ selPages k ps (labelTrace f cur ps))
          | none =>
            if k ∈ labelTrace f cur ps then some (selPages k ps (labelTrace f cur ps))
            else none := by
  intro ps
  induction ps with
  | nil =>
    intro d cur k
    show alookup k d = _
    cases alookup k d <;> simp [labelTrace, selPages_nil_left]
  | cons p ps ih =>
    intro d cur k
    show alookup k (group_go f ps
        (pyAppendAt (pySetdefault (headingUpdate f d cur p).1 (headingUpdate f d cur p).2)
          (headingUpdate f d cur p).2 p) (headingUpdate f d cur p).2) = _
    rw [headingUpdate_snd, ih, group_step_alookup]
    simp only [labelTrace]
    by_cases hk : k = pageLabel f cur p
    · rw [if_pos hk, selPages_cons, if_pos hk.symm]
      cases hA : alookup k d with
      | some old => simp
      | none =>
        have hmem : k ∈ pageLabel f cur p :: labelTrace f (pageLabel f cur p) ps := by
          rw [hk]; exact List.mem_cons_self _ _
        simp [hmem]
    · have hk2 : ¬ pageLabel f cur p = k := fun h => hk h.symm
      rw [if_neg hk, selPages_cons, if_neg hk2]
      cases hA : alookup k d with
      | some old => simp
      | none =>
        have hiff : (k ∈ pageLabel f cur p :: labelTrace f (pageLabel f cur p) ps)
            ↔ k ∈ labelTrace f (pageLabel f cur p) ps := by
          rw [List.mem_cons]
          exact ⟨fun h => h.resolve_left hk, Or.inr⟩
        by_cases hm : k ∈ labelTrace f (pageLabel f cur p) ps
        · have hmc : k ∈ pageLabel f cur p :: labelTrace f (pageLabel f cur p) ps :=
            hiff.mpr hm
          simp [hm, hmc]
        · have hmc : k ∉ pageLabel f cur p :: labelTrace f (pageLabel f cur p) ps :=
            fun hx => hm (hiff.mp hx)
          simp [hm, hmc]

theorem group_go_keys_nodup (f : Page → List String) :
    ∀ (ps : List Page) (d : List (String × List Page)) (cur : String),
      (keysOf d).Nodup → (keysOf (group_go f ps d cur)).Nodup := by
  intro ps
  induction ps with
  | nil => intro d cur h; exact h
  | cons p ps ih =>
    intro d cur h
    show (keysOf (group_go f ps
        (pyAppendAt (pySetdefault (headingUpdate f d cur p).1 (headingUpdate f d cur p).2)
          (headingUpdate f d cur p).2 p) (headingUpdate f d cur p).2)).Nodup
    apply ih
    rw [keysOf_pyAppendAt]
    exact keysOf_pySetdefault_nodup _ _ (headingUpdate_fst_keys_nodup f d cur p h)

theorem group_go_keys_mono (f : Page → List String) :
    ∀ (ps : List Page) (d : List (String × List Page)) (cur k : String),
      k ∈ keysOf d → k ∈ keysOf (group_go f ps d cur) := by
  intro ps
  induction ps with
  | nil => intro d cur k h; exact h
  | cons p ps ih =>
    intro d cur k h
    show k ∈ keysOf (group_go f ps
        (pyAppendAt (pySetdefault (headingUpdate f d cur p).1 (headingUpdate f d cur p).2)
          (headingUpdate f d cur p).2 p) (headingUpdate f d cur p).2)
    apply ih
    rw [keysOf_pyAppendAt]
    apply mem_keysOf_pySetdefault_of_mem
    cases hfp : (f p).getLast? with
    | none => simpa [headingUpdate, hfp] using h
    | some raw =>
      by_cases he : pyStrip raw = ""
      · simpa [headingUpdate, hfp, he] using h
      · simp only [headingUpdate, hfp]
        rw [if_neg he]
        exact mem_keysOf_pySetdefault_of_mem d _ k h

theorem group_go_flatten_perm (f : Page → List String) :
    ∀ (ps : List Page) (d : List (String × List Page)) (cur : String),
      (keysOf d).Nodup → cur ∈ keysOf d →
      List.Perm ((group_go f ps d cur).map Prod.snd).flatten
        ((d.map Prod.snd).flatten ++ ps) := by
  intro ps
  induction ps with
  | nil =>
    intro d cur _ _
    simp [group_go]
  | cons p ps ih =>
    intro d cur hnd hcur
    show List.Perm ((group_go f ps
        (pyAppendAt (pySetdefault (headingUpdate f d cur p).1 (headingUpdate f d cur p).2)
          (headingUpdate f d cur p).2 p) (headingUpdate f d cur p).2).map Prod.snd).flatten _
    have hnd1 : (keysOf (pySetdefault (headingUpdate f d cur p).1
        (headingUpdate f d cur p).2)).Nodup :=
      keysOf_pySetdefault_nodup _ _ (headingUpdate_fst_keys_nodup f d cur p hnd)
    have hmem1 : (headingUpdate f d cur p).2 ∈ keysOf (pySetdefault (headingUpdate f d cur p).1
        (headingUpdate f d cur p).2) :=
      mem_keysOf_pySetdefault_self _ _
    have hnd2 : (keysOf (pyAppendAt (pySetdefault (headingUpdate f d cur p).1
        (headingUpdate f d cur p).2) (headingUpdate f d cur p).2 p)).Nodup := by
      rw [keysOf_pyAppendAt]; exact hnd1
    have hmem2 : (headingUpdate f d cur p).2 ∈ keysOf (pyAppendAt
        (pySetdefault (headingUpdate f d cur p).1 (headingUpdate f d cur p).2)
        (headingUpdate f d cur p).2 p) := by
      rw [keysOf_pyAppendAt]; exact hmem1
    refine List.Perm.trans (ih _ _ hnd2 hmem2) ?_
    have hstep : List.Perm ((pyAppendAt (pySetdefault (headingUpdate f d cur p).1
          (headingUpdate f d cur p).2) (headingUpdate f d cur p).2 p).map Prod.snd).flatten
        ((d.map Prod.snd).flatten ++ [p]) := by
      refine List.Perm.trans (flatten_snd_pyAppendAt _ p _ hnd1 hmem1) ?_
      rw [flatten_snd_pySetdefault, headingUpdate_fst_flatten]
    have : List.Perm (((pyAppendAt (pySetdefault (headingUpdate f d cur p).1
          (headingUpdate f d cur p).2) (headingUpdate f d cur p).2 p).map Prod.snd).flatten ++ ps)
        (((d.map Prod.snd).flatten ++ [p]) ++ ps) :=
      List.Perm.append_right ps hstep
    refine List.Perm.trans this ?_
    rw [List.append_assoc]
    rfl

theorem alookup_of_mem_nodup {β : Type} :
    ∀ (d : List (String × β)) (kv : String × β),
      (keysOf d).Nodup → kv ∈ d → alookup kv.1 d = some kv.2 := by
  intro d
  induction d with
  | nil => intro kv _ h; simp at h
  | cons hd rest ih =>
    intro kv hnd hm
    rw [keysOf_cons] at hnd
    have hnd1 : hd.1 ∉ keysOf rest := (List.nodup_cons.mp hnd).1
    have hnd2 : (keysOf rest).Nodup := (List.nodup_cons.mp hnd).2
    rcases List.mem_cons.mp hm with h | h
    · subst h
      rw [alookup_cons, if_pos rfl]
    · have hk : kv.1 ∈ keysOf rest := List.mem_map.mpr ⟨kv, h, rfl⟩
      have hne : hd.1 ≠ kv.1 := fun he => hnd1 (he ▸ hk)
      rw [alookup_cons, if_neg hne]
      exact ih kv hnd2 h

theorem labelTrace_length (f : Page → List String) :
    ∀ (ps : List Page) (cur : String), (labelTrace f cur ps).length = ps.length := by
  intro ps
  induction ps with
  | nil => intro cur; rfl
  | cons p ps ih => intro cur; simp [labelTrace, ih]

theorem labelTrace_append (f : Page → List String) :
    ∀ (xs ys : List Page) (cur : String),
      labelTrace f cur (xs ++ ys)
        = labelTrace f cur xs ++ labelTrace f (endLabel f cur xs) ys := by
  intro xs
  induction xs with
  | nil => intro ys cur; rfl
  | cons x xs ih =>
    intro ys cur
    simp [labelTrace, endLabel, ih]

theorem trace_headless (f : Page → List String) :
    ∀ (mid : List Page) (c : String), (∀ r ∈ mid, f r = []) →
      labelTrace f c mid = List.replicate mid.length c ∧ endLabel f c mid = c := by
  intro mid
  induction mid with
  | nil => intro c _; exact ⟨rfl, rfl⟩
  | cons m mid ih =>
    intro c hall
    have hm : f m = [] := hall m (List.mem_cons_self _ _)
    have hpl : pageLabel f c m = c := by simp [pageLabel, hm]
    obtain ⟨h1, h2⟩ := ih c (fun r hr => hall r (List.mem_cons_of_mem _ hr))
    constructor
    · simp [labelTrace, hpl, h1, List.replicate_succ]
    · simp [endLabel, hpl, h2]

theorem pageLabel_concat (f : Page → List String) (cur : String) (p : Page)
    (ls : List String) (raw : String) (hp : f p = ls ++ [raw])
    (hraw : pyStrip raw ≠ "") :
    pageLabel f cur p = pyStrip raw := by
  simp [pageLabel, hp, List.getLast?_concat, hraw]

/-- C5: for every page sequence (and any heading-match oracle `f`), the
groups produced by `group_pages_by_project` jointly contain every input
page occurrence exactly once (their concatenation is a permutation of the
input), each group preserves the input's relative page order (it is a
sublist of the input), and the default label is present as a key even
when its group is empty. -/
theorem group_pages_partition (f : Page → List String) (dflt : String) (ps : List Page) :
    List.Perm (((group_pages_by_project f dflt ps).map Prod.snd).flatten) ps ∧
    (∀ kv ∈ group_pages_by_project f dflt ps, List.Sublist kv.2 ps) ∧
    dflt ∈ keysOf (group_pages_by_project f dflt ps) := by
  refine ⟨?_, ?_, ?_⟩
  · have h := group_go_flatten_perm f ps [(dflt, [])] dflt
      (by simp [keysOf]) (by simp [keysOf])
    simpa using h
  · intro kv hm
    have hnd : (keysOf (group_pages_by_project f dflt ps)).Nodup :=
      group_go_keys_nodup f ps [(dflt, [])] dflt (by simp [keysOf])
    have hl : alookup kv.1 (group_pages_by_project f dflt ps) = some kv.2 :=
      alookup_of_mem_nodup _ kv hnd hm
    unfold group_pages_by_project at hl
    rw [group_go_alookup] at hl
    by_cases hd : dflt = kv.1
    · have he : alookup kv.1 [(dflt, ([] : List Page))] = some [] := by
        rw [alookup_cons, if_pos hd]
      rw [he] at hl
      have hv : kv.2 = selPages kv.1 ps (labelTrace f dflt ps) := by
        simpa using hl.symm
      rw [hv]
      exact selPages_sublist _ _ _
    · have he : alookup kv.1 [(dflt, ([] : List Page))] = none := by
        rw [alookup_cons, if_neg hd]
        rfl
      rw [he] at hl
      by_cases hmem : kv.1 ∈ labelTrace f dflt ps
      · have hv : kv.2 = selPages kv.1 ps (labelTrace f dflt ps) := by
          simpa [hmem] using hl.symm
        rw [hv]
        exact selPages_sublist _ _ _
      · simp [hmem] at hl
  · exact group_go_keys_mono f ps [(dflt, [])] dflt dflt (by simp [keysOf])

/-- C5 witness at a concrete input. -/
theorem group_pages_partition_witness :
    List.Sublist ([⟨(1 : Int), ['x']⟩] : List Page) [⟨1, ['x']⟩] :=
  (group_pages_partition (fun _ => []) "G" [⟨1, ['x']⟩]).2.1
    ("G", [⟨1, ['x']⟩]) (by decide)

/-- C6: if a page carries two or more heading matches and the last match's
stripped label is non-empty, then that page, and every following page
without a heading match (up to the next heading), is assigned to the last
match's label. -/
theorem group_last_heading_assigns (f : Page → List String) (dflt : String)
    (pre mid post : List Page) (p q : Page) (ls : List String) (raw : String)
    (hp : f p = ls ++ [raw]) (hls : ls ≠ []) (hraw : pyStrip raw ≠ "")
    (hmid : ∀ r ∈ mid, f r = []) (hq : f q = []) :
    ∃ g, alookup (pyStrip raw)
        (group_pages_by_project f dflt (pre ++ p :: (mid ++ q :: post))) = some g ∧
      p ∈ g ∧ q ∈ g := by
  have h1 : labelTrace f dflt (pre ++ p :: (mid ++ q :: post))
      = labelTrace f dflt pre
        ++ labelTrace f (endLabel f dflt pre) (p :: (mid ++ q :: post)) :=
    labelTrace_append f pre _ dflt
  have hpl : pageLabel f (endLabel f dflt pre) p = pyStrip raw :=
    pageLabel_concat f _ p ls raw hp hraw
  have h2 : labelTrace f (endLabel f dflt pre) (p :: (mid ++ q :: post))
      = pyStrip raw :: labelTrace f (pyStrip raw) (mid ++ q :: post) := by
    simp only [labelTrace, hpl]
  have h3 : labelTrace f (pyStrip raw) (mid ++ q :: post)
      = List.replicate mid.length (pyStrip raw)
        ++ labelTrace f (pyStrip raw) (q :: post) := by
    rw [labelTrace_append]
    obtain ⟨hm1, hm2⟩ := trace_headless f mid (pyStrip raw) hmid
    rw [hm1, hm2]
  have hql : pageLabel f (pyStrip raw) q = pyStrip raw := by simp [pageLabel, hq]
  have h4 : labelTrace f (pyStrip raw) (q :: post)
      = pyStrip raw :: labelTrace f (pyStrip raw) post := by
    simp only [labelTrace, hql]
  have htr : labelTrace f dflt (pre ++ p :: (mid ++ q :: post))
      = labelTrace f dflt pre
        ++ (pyStrip raw :: (List.replicate mid.length (pyStrip raw)
            ++ (pyStrip raw :: labelTrace f (pyStrip raw) post))) := by
    rw [h1, h2, h3, h4]
  have hzip : (pre ++ p :: (mid ++ q :: post)).zip
      (labelTrace f dflt (pre ++ p :: (mid ++ q :: post)))
      = pre.zip (labelTrace f dflt pre)
        ++ ((p, pyStrip raw) :: ((mid ++ q :: post).zip
            (List.replicate mid.length (pyStrip raw)
              ++ (pyStrip raw :: labelTrace f (pyStrip raw) post)))) := by
    rw [htr, List.zip_append (labelTrace_length f pre dflt).symm, List.zip_cons_cons]
  have hqzip : (q, pyStrip raw) ∈ (mid ++ q :: post).zip
      (List.replicate mid.length (pyStrip raw)
        ++ (pyStrip raw :: labelTrace f (pyStrip raw) post)) := by
    rw [List.zip_append (by simp)]
    refine List.mem_append_right _ ?_
    rw [List.zip_cons_cons]
    exact List.mem_cons_self _ _
  have hpmem : (p, pyStrip raw) ∈ (pre ++ p :: (mid ++ q :: post)).zip
      (labelTrace f dflt (pre ++ p :: (mid ++ q :: post))) := by
    rw [hzip]
    exact List.mem_append_right _ (List.mem_cons_self _ _)
  have hqmem : (q, pyStrip raw) ∈ (pre ++ p :: (mid ++ q :: post)).zip
      (labelTrace f dflt (pre ++ p :: (mid ++ q :: post))) := by
    rw [hzip]
    exact List.mem_append_right _ (List.mem_cons_of_mem _ hqzip)
  have hpsel : p ∈ selPages (pyStrip raw) (pre ++ p :: (mid ++ q :: post))
      (labelTrace f dflt (pre ++ p :: (mid ++ q :: post))) :=
    mem_selPages _ _ _ _ hpmem
  have hqsel : q ∈ selPages (pyStrip raw) (pre ++ p :: (mid ++ q :: post))
      (labelTrace f dflt (pre ++ p :: (mid ++ q :: post))) :=
    mem_selPages _ _ _ _ hqmem
  have hltr : pyStrip raw ∈ labelTrace f dflt (pre ++ p :: (mid ++ q :: post)) := by
    rw [htr]
    exact List.mem_append_right _ (List.mem_cons_self _ _)
  unfold group_pages_by_project
  by_cases hd : dflt = pyStrip raw
  · refine ⟨[] ++ selPages (pyStrip raw) (pre ++ p :: (mid ++ q :: post))
        (labelTrace f dflt (pre ++ p :: (mid ++ q :: post))), ?_,
      by simpa using hpsel, by simpa using hqsel⟩
    rw [group_go_alookup]
    have he : alookup (pyStrip raw) [(dflt, ([] : List Page))] = some [] := by
      rw [alookup_cons, if_pos hd]
    rw [he]
  · refine ⟨selPages (pyStrip raw) (pre ++ p :: (mid ++ q :: post))
        (labelTrace f dflt (pre ++ p :: (mid ++ q :: post))), ?_, hpsel, hqsel⟩
    rw [group_go_alookup]
    have he : alookup (pyStrip raw) [(dflt, ([] : List Page))] = none := by
      rw [alookup_cons, if_neg hd]
      rfl
    rw [he]
    simp [hltr]

/-- C6 witness at a concrete input: page 1 carries two headings "A" then
"B"; page 1 and the headless page 2 both land in group "B". -/
theorem group_last_heading_assigns_witness :
    ∃ g, alookup "B" (group_pages_by_project
        (fun pg => if pg.number = 1 then ["A", "B"] else []) "G"
        [⟨1, ['h']⟩, ⟨2, ['x']⟩]) = some g ∧
      (⟨1, ['h']⟩ : Page) ∈ g ∧ (⟨2, ['x']⟩ : Page) ∈ g :=
  group_last_heading_assigns (fun pg => if pg.number = 1 then ["A", "B"] else [])
    "G" [] [] [] ⟨1, ['h']⟩ ⟨2, ['x']⟩ ["A"] "B"
    (by decide) (by decide) (by decide) (by simp) (by decide)

/-! ## Index and search lemmas -/

theorem rankLT_trans (s : List ℚ) :
    ∀ {i j k : Nat}, rankLT s i j → rankLT s j k → rankLT s i k := by
  intro i j k hij hjk
  rcases hij with h | ⟨he, hi⟩ <;> rcases hjk with h' | ⟨he', hi'⟩
  · exact Or.inl (lt_trans h h')
  · exact Or.inl (lt_of_lt_of_eq h he')
  · exact Or.inl (lt_of_eq_of_lt he h')
  · exact Or.inr ⟨he.trans he', lt_trans hi hi'⟩

theorem rankLT_total (s : List ℚ) {i j : Nat} (h : i ≠ j) :
    rankLT s i j ∨ rankLT s j i := by
  rcases lt_trichotomy (s.getD i 0) (s.getD j 0) with hlt | heq | hgt
  · exact Or.inl (Or.inl hlt)
  · rcases Nat.lt_or_ge i j with hij | hij
    · exact Or.inl (Or.inr ⟨heq, hij⟩)
    · have hji : j < i := Nat.lt_of_le_of_ne hij (fun he => h he.symm)
      exact Or.inr (Or.inr ⟨heq.symm, hji⟩)
  · exact Or.inr (Or.inl hgt)

theorem insertIdx_perm (s : List ℚ) (i : Nat) :
    ∀ l : List Nat, List.Perm (insertIdx s i l) (i :: l) := by
  intro l
  induction l with
  | nil => exact List.Perm.refl _
  | cons j rest ih =>
    show List.Perm (if rankLT s i j then i :: j :: rest else j :: insertIdx s i rest) _
    by_cases h : rankLT s i j
    · rw [if_pos h]
    · rw [if_neg h]
      exact List.Perm.trans (List.Perm.cons j ih) (List.Perm.swap i j rest)

theorem insertIdx_pairwise (s : List ℚ) (i : Nat) :
    ∀ l : List Nat, List.Pairwise (rankLT s) l → (∀ j ∈ l, j ≠ i) →
      List.Pairwise (rankLT s) (insertIdx s i l) := by
  intro l
  induction l with
  | nil => intro _ _; simp [insertIdx]
  | cons j rest ih =>
    intro hp hne
    obtain ⟨hj, hrest⟩ := List.pairwise_cons.mp hp
    show List.Pairwise (rankLT s) (if rankLT s i j then i :: j :: rest else j :: insertIdx s i rest)
    by_cases h : rankLT s i j
    · rw [if_pos h]
      refine List.Pairwise.cons ?_ hp
      intro a ha
      rcases List.mem_cons.mp ha with rfl | ha'
      · exact h
      · exact rankLT_trans s h (hj a ha')
    · rw [if_neg h]
      have hne_ij : i ≠ j := fun he => hne j (List.mem_cons_self _ _) he.symm
      have hji : rankLT s j i := (rankLT_total s hne_ij).resolve_left h
      refine List.Pairwise.cons ?_ (ih hrest (fun a ha => hne a (List.mem_cons_of_mem _ ha)))
      intro a ha
      have ha' : a ∈ i :: rest := (insertIdx_perm s i rest).mem_iff.mp ha
      rcases List.mem_cons.mp ha' with rfl | ha''
      · exact hji
      · exact hj a ha''

theorem argsortAsc_perm_pairwise (s : List ℚ) :
    ∀ l : List Nat, l.Nodup →
      List.Perm (l.foldr (insertIdx s) []) l ∧
      List.Pairwise (rankLT s) (l.foldr (insertIdx s) []) := by
  intro l
  induction l with
  | nil => intro _; exact ⟨List.Perm.refl _, List.Pairwise.nil⟩
  | cons x xs ih =>
    intro hnd
    obtain ⟨hx, hxs⟩ := List.nodup_cons.mp hnd
    obtain ⟨hperm, hpair⟩ := ih hxs
    constructor
    · exact List.Perm.trans (insertIdx_perm s x _) (List.Perm.cons x hperm)
    · refine insertIdx_pairwise s x _ hpair ?_
      intro j hj he
      exact hx (he ▸ hperm.mem_iff.mp hj)

theorem argsortAsc_pairwise (s : List ℚ) : List.Pairwise (rankLT s) (argsortAsc s) :=
  (argsortAsc_perm_pairwise s (List.range s.length) (List.nodup_range s.length)).2

theorem argsortAsc_le_pairwise (s : List ℚ) :
    List.Pairwise (fun i j => s.getD i 0 ≤ s.getD j 0) (argsortAsc s) := by
  refine List.Pairwise.imp ?_ (argsortAsc_pairwise s)
  intro i j hij
  rcases hij with h | ⟨he, _⟩
  · exact le_of_lt h
  · exact le_of_eq he

theorem argsortAsc_isArgsortAsc (s : List ℚ) : isArgsortAsc s (argsortAsc s) :=
  ⟨(argsortAsc_perm_pairwise s (List.range s.length) (List.nodup_range s.length)).1,
   argsortAsc_le_pairwise s⟩

theorem search_eq_searchWith (idx : DocumentIndex) (sims : List ℚ)
    (query : String) (top_k : Nat) :
    DocumentIndex.search idx sims query top_k
      = searchWith idx sims (argsortAsc sims) query top_k := rfl

theorem searchWith_ranking (idx : DocumentIndex) (sims : List ℚ) (order : List Nat)
    (query : String) (top_k : Nat)
    (horder : List.Pairwise (fun i j => sims.getD i 0 ≤ sims.getD j 0) order)
    (hq : pyStrip query ≠ "") :
    (searchWith idx sims order query top_k).length ≤ top_k ∧
    (∀ r ∈ searchWith idx sims order query top_k, 0 < r.score) ∧
    List.Pairwise (fun a b => b.score ≤ a.score)
      (searchWith idx sims order query top_k) := by
  have hval : searchWith idx sims order query top_k
      = ((order.reverse.take top_k).filter (fun i => decide (0 < sims.getD i 0))).map
        (fun i => ⟨idx.documents.getD i default, sims.getD i 0⟩) := by
    unfold searchWith
    rw [if_neg hq]
  refine ⟨?_, ?_, ?_⟩
  · rw [hval, List.length_map]
    calc ((order.reverse.take top_k).filter (fun i => decide (0 < sims.getD i 0))).length
        ≤ (order.reverse.take top_k).length := List.length_filter_le _ _
      _ ≤ top_k := List.length_take_le _ _
  · intro r hr
    rw [hval] at hr
    obtain ⟨i, hi, hri⟩ := List.mem_map.mp hr
    have h := (List.mem_filter.mp hi).2
    rw [← hri]
    simpa using h
  · rw [hval, List.pairwise_map]
    have hrev : List.Pairwise (fun i j => sims.getD j 0 ≤ sims.getD i 0) order.reverse := by
      rw [List.pairwise_reverse]
      exact horder
    have hsub : List.Sublist ((order.reverse.take top_k).filter
        (fun i => decide (0 < sims.getD i 0))) order.reverse :=
      List.Sublist.trans (List.filter_sublist _) (List.take_sublist _ _)
    exact List.Pairwise.imp (fun h => h) (List.Pairwise.sublist hsub hrev)

/-- C4 counterexample: two distinct documents with equal similarity 1.
`[0, 1]` is a valid ascending argsort of `[1, 1]` — and the output numpy
actually produces at this input (arrays below the introsort
insertion-sort cutoff are insertion-sorted). Reversed, sliced and
wrapped as in `search`, the document with the LARGER original index
comes first, refuting the claimed stable smaller-index-first
tie-break. -/
theorem search_tie_order_counterexample :
    isArgsortAsc [1, 1] [0, 1] ∧
    searchWith ⟨[⟨['a'], []⟩, ⟨['b'], []⟩]⟩ [1, 1] [0, 1] "q" 2
      = [⟨⟨['b'], []⟩, 1⟩, ⟨⟨['a'], []⟩, 1⟩] ∧
    (⟨['a'], []⟩ : Document) ≠ ⟨['b'], []⟩ := by
  refine ⟨⟨by decide, by decide⟩, rfl, by decide⟩

/-- C4 amended: for every similarity vector, every valid ascending
argsort output `order` (the tie order among equal similarities is
unspecified: `np.argsort`'s default quicksort is not stable), every
non-blank query and every `top_k`: the search post-processing returns at
most `top_k` results, every returned score is strictly positive, and the
results are ordered by descending score. The same three properties hold
for `DocumentIndex.search` itself, which instantiates the family at the
executable argsort. No tie-break rule is asserted. -/
theorem search_ranking_amended (idx : DocumentIndex) (sims : List ℚ)
    (order : List Nat) (query : String) (top_k : Nat)
    (horder : isArgsortAsc sims order) (hq : pyStrip query ≠ "") :
    (searchWith idx sims order query top_k).length ≤ top_k ∧
    (∀ r ∈ searchWith idx sims order query top_k, 0 < r.score) ∧
    List.Pairwise (fun a b => b.score ≤ a.score)
      (searchWith idx sims order query top_k) ∧
    (idx.search sims query top_k).length ≤ top_k ∧
    (∀ r ∈ idx.search sims query top_k, 0 < r.score) ∧
    List.Pairwise (fun a b => b.score ≤ a.score) (idx.search sims query top_k) := by
  obtain ⟨h1, h2, h3⟩ := searchWith_ranking idx sims order query top_k horder.2 hq
  obtain ⟨h4, h5, h6⟩ := searchWith_ranking idx sims (argsortAsc sims) query top_k
    (argsortAsc_le_pairwise sims) hq
  rw [search_eq_searchWith]
  exact ⟨h1, h2, h3, h4, h5, h6⟩

/-- C4 witness at a concrete input. -/
theorem search_ranking_amended_witness :
    (searchWith ⟨[⟨['a'], []⟩]⟩ [1] [0] "q" 5).length ≤ 5 :=
  (search_ranking_amended ⟨[⟨['a'], []⟩]⟩ [1] [0] "q" 5
    ⟨by decide, by decide⟩ (by decide)).1

/-- C7: constructing an index from the empty document list is rejected
with the invalid-argument error, construction from a non-empty list
succeeds, and search with a whitespace-only (blank after strip) query on
any index returns the empty sequence. -/
theorem index_empty_reject_blank_query :
    DocumentIndex.make []
      = Except.error "DocumentIndex requires at least one document" ∧
    (∀ (d : Document) (ds : List Document),
      DocumentIndex.make (d :: ds) = Except.ok ⟨d :: ds⟩) ∧
    (∀ (idx : DocumentIndex) (sims : List ℚ) (query : String) (top_k : Nat),
      pyStrip query = "" → idx.search sims query top_k = []) := by
  refine ⟨rfl, ?_, ?_⟩
  · intro d ds
    unfold DocumentIndex.make
    rw [if_neg (by simp)]
  · intro idx sims query top_k hq
    unfold DocumentIndex.search
    rw [if_pos hq]

/-- C7 witness at concrete inputs. -/
theorem index_empty_reject_blank_query_witness :
    DocumentIndex.make [⟨['a'], []⟩] = Except.ok ⟨[⟨['a'], []⟩]⟩ ∧
    DocumentIndex.search ⟨[⟨['a'], []⟩]⟩ [1] "  " 5 = [] :=
  ⟨index_empty_reject_blank_query.2.1 ⟨['a'], []⟩ [],
   index_empty_reject_blank_query.2.2 ⟨[⟨['a'], []⟩]⟩ [1] "  " 5 (by decide)⟩

/-- C8: `score_to_confidence` is exactly 0 for non-positive scores, equals
the logistic `1 / (1 + exp (-6 * (score - 0.25)))` for positive scores,
always lies in `[0, 1]`, and is monotonically non-decreasing. -/
theorem score_to_confidence_spec :
    (∀ s : ℝ, s ≤ 0 → DocumentIndex.score_to_confidence s = 0) ∧
    (∀ s : ℝ, 0 < s → DocumentIndex.score_to_confidence s
      = 1 / (1 + Real.exp (-6 * (s - 0.25)))) ∧
    (∀ s : ℝ, 0 ≤ DocumentIndex.score_to_confidence s ∧
      DocumentIndex.score_to_confidence s ≤ 1) ∧
    (∀ a b : ℝ, a ≤ b →
      DocumentIndex.score_to_confidence a ≤ DocumentIndex.score_to_confidence b) := by
  have hzero : ∀ s : ℝ, s ≤ 0 → DocumentIndex.score_to_confidence s = 0 := by
    intro s hs
    unfold DocumentIndex.score_to_confidence
    rw [if_pos hs]
  have hposval : ∀ s : ℝ, 0 < s → DocumentIndex.score_to_confidence s
      = 1 / (1 + Real.exp (-6 * (s - 0.25))) := by
    intro s hs
    unfold DocumentIndex.score_to_confidence
    rw [if_neg (not_le.mpr hs)]
  have hden : ∀ s : ℝ, 0 < 1 + Real.exp (-6 * (s - 0.25)) := by
    intro s
    have := Real.exp_pos (-6 * (s - 0.25))
    linarith
  have hbounds : ∀ s : ℝ, 0 ≤ DocumentIndex.score_to_confidence s ∧
      DocumentIndex.score_to_confidence s ≤ 1 := by
    intro s
    by_cases hs : s ≤ 0
    · rw [hzero s hs]
      norm_num
    · rw [hposval s (not_le.mp hs)]
      constructor
      · exact le_of_lt (div_pos one_pos (hden s))
      · rw [div_le_one (hden s)]
        have := Real.exp_pos (-6 * (s - 0.25))
        linarith
  have hmono : ∀ a b : ℝ, a ≤ b →
      DocumentIndex.score_to_confidence a ≤ DocumentIndex.score_to_confidence b := by
    intro a b hab
    by_cases hb : b ≤ 0
    · have ha : a ≤ 0 := le_trans hab hb
      rw [hzero a ha, hzero b hb]
    · have hbpos : 0 < b := not_le.mp hb
      by_cases ha : a ≤ 0
      · rw [hzero a ha, hposval b hbpos]
        exact le_of_lt (div_pos one_pos (hden b))
      · have hapos : 0 < a := not_le.mp ha
        rw [hposval a hapos, hposval b hbpos]
        have hexp : Real.exp (-6 * (b - 0.25)) ≤ Real.exp (-6 * (a - 0.25)) :=
          Real.exp_le_exp.mpr (by linarith)
        have h1 : 1 + Real.exp (-6 * (b - 0.25)) ≤ 1 + Real.exp (-6 * (a - 0.25)) := by
          linarith
        exact one_div_le_one_div_of_le (hden b) h1
  exact ⟨hzero, hposval, hbounds, hmono⟩

/-- C8 witness at concrete inputs. -/
theorem score_to_confidence_spec_witness :
    DocumentIndex.score_to_confidence (-1) = 0 ∧
    DocumentIndex.score_to_confidence (-1) ≤ DocumentIndex.score_to_confidence 1 :=
  ⟨score_to_confidence_spec.1 (-1) (by norm_num),
   score_to_confidence_spec.2.2.2 (-1) 1 (by norm_num)⟩

/-! ## Agent lemmas -/

theorem answerProject_project (g : GeminiOracle) (conf : ℚ → ℚ) (fmt : ℚ → String)
    (question : String) (instructions : Option String) (top_k : Nat)
    (sims : List ℚ) (project : String) (index : DocumentIndex) :
    (Agent.answerProject g conf fmt question instructions top_k sims project index).1.project
      = project := by
  simp only [Agent.answerProject]
  split_ifs <;> rfl

/-- C9: for a project whose index search returns no results for the
question, `Agent.answer` emits for that project an `AgentAnswer` with the
fixed no-information text, confidence exactly 0 and an empty sources list,
and the instrumented backend-call count for that project is 0 (no
`generate` call is made). -/
theorem answer_no_results_fixed (g : GeminiOracle) (conf : ℚ → ℚ) (fmt : ℚ → String)
    (simsOf : String → List ℚ) (a : Agent) (question : String)
    (instructions : Option String) (top_k : Nat) (k : Nat)
    (p : String) (idx : DocumentIndex)
    (hk : a.project_indexes[k]? = some (p, idx))
    (hemp : idx.search (simsOf p) question top_k = []) :
    (Agent.answer a g conf fmt simsOf question instructions top_k)[k]?
      = some (⟨p, noInfoAnswer, 0, []⟩, 0) := by
  unfold Agent.answer
  rw [List.getElem?_map, hk, Option.map_some']
  simp only [Agent.answerProject]
  rw [if_pos hemp]

/-- C9 witness at a concrete input: the single document never matches
(similarity 0), so the search is empty and the fixed answer is emitted
with no backend call. -/
theorem answer_no_results_fixed_witness :
    (Agent.answer ⟨[("P", ⟨[⟨['a'], []⟩]⟩)]⟩ ⟨fun _ _ _ => "", fun _ => ""⟩
        (fun q => q) (fun _ => "") (fun _ => [0]) "q" none 4)[0]?
      = some (⟨"P", noInfoAnswer, 0, []⟩, 0) :=
  answer_no_results_fixed ⟨fun _ _ _ => "", fun _ => ""⟩ (fun q => q) (fun _ => "")
    (fun _ => [0]) ⟨[("P", ⟨[⟨['a'], []⟩]⟩)]⟩ "q" none 4 0 "P" ⟨[⟨['a'], []⟩]⟩
    rfl (by decide)

theorem split_ok_empty (page : Page) (maxc ov : Int) (fuel : Nat) (l : List Chunk)
    (h : split_page_into_chunks page maxc ov fuel = some (Except.ok l))
    (hemp : page.text = []) : l = [] := by
  unfold split_page_into_chunks at h
  by_cases h1 : maxc ≤ 0
  · rw [if_pos h1] at h
    simp at h
  · rw [if_neg h1] at h
    by_cases h2 : ov < 0
    · rw [if_pos h2] at h
      simp at h
    · rw [if_neg h2, if_pos hemp] at h
      simp only [Option.some.injEq, Except.ok.injEq] at h
      exact h.symm

theorem iter_chunks_projects (projLabel : String) :
    ∀ (pp : List (String × Page)) (maxc ov : Int) (chunks : List (String × Chunk)),
      iter_chunks_by_project pp maxc ov = some (Except.ok chunks) →
      (∀ pr ∈ pp, pr.1 = projLabel → pr.2.text = []) →
      ∀ pc ∈ chunks, pc.1 ≠ projLabel := by
  intro pp
  induction pp with
  | nil =>
    intro maxc ov chunks h _ pc hpc
    simp [iter_chunks_by_project] at h
    subst h
    simp at hpc
  | cons hd rest ih =>
    intro maxc ov chunks h hall pc hpc
    obtain ⟨proj, page⟩ := hd
    simp only [iter_chunks_by_project] at h
    cases hsp : splitPage page maxc ov with
    | none =>
      rw [hsp] at h
      simp at h
    | some r =>
      cases r with
      | error e =>
        rw [hsp] at h
        simp at h
      | ok cs =>
        rw [hsp] at h
        cases hrest : iter_chunks_by_project rest maxc ov with
        | none =>
          rw [hrest] at h
          simp at h
        | some r2 =>
          cases r2 with
          | error e =>
            rw [hrest] at h
            simp at h
          | ok tail =>
            rw [hrest] at h
            simp only [Option.some.injEq, Except.ok.injEq] at h
            rw [← h] at hpc
            rcases List.mem_append.mp hpc with hm | hm
            · obtain ⟨c, hc, hceq⟩ := List.mem_map.mp hm
              intro hcontra
              rw [← hceq] at hcontra
              have hpt : page.text = [] := hall (proj, page) (List.mem_cons_self _ _) hcontra
              have hcs : cs = [] :=
                split_ok_empty page maxc ov (page.text.length + 1) cs hsp hpt
              rw [hcs] at hc
              simp at hc
            · exact ih maxc ov tail hrest
                (fun pr hpr => hall pr (List.mem_cons_of_mem _ hpr)) pc hm

theorem build_documents_project (chunks : List (String × Chunk)) :
    ∀ doc ∈ build_documents (chunks.map chunkTuple),
      ∃ pc ∈ chunks, metaProjectStr doc = pc.1 := by
  intro doc hdoc
  unfold build_documents at hdoc
  rw [List.map_map] at hdoc
  obtain ⟨pc, hpc, hde⟩ := List.mem_map.mp hdoc
  refine ⟨pc, hpc, ?_⟩
  rw [← hde]
  rfl

theorem groupDocs_keys :
    ∀ (docs : List Document) (acc : List (String × List Document)) (k : String),
      k ∈ keysOf (groupDocs docs acc) →
      k ∈ keysOf acc ∨ ∃ doc ∈ docs, metaProjectStr doc = k := by
  intro docs
  induction docs with
  | nil => intro acc k h; exact Or.inl h
  | cons doc rest ih =>
    intro acc k h
    rcases ih _ k h with hacc | ⟨d, hd, hdk⟩
    · rw [keysOf_pyAppendAt] at hacc
      unfold pySetdefault at hacc
      by_cases hm : metaProjectStr doc ∈ keysOf acc
      · rw [if_pos hm] at hacc
        exact Or.inl hacc
      · rw [if_neg hm, keysOf_append] at hacc
        rcases List.mem_append.mp hacc with h1 | h1
        · exact Or.inl h1
        · simp [keysOf] at h1
          exact Or.inr ⟨doc, List.mem_cons_self _ _, h1.symm⟩
    · exact Or.inr ⟨d, List.mem_cons_of_mem _ hd, hdk⟩

theorem buildIndexes_keys :
    ∀ (pd : List (String × List Document)) (res : List (String × DocumentIndex)),
      buildIndexes pd = Except.ok res → ∀ k ∈ keysOf res, k ∈ keysOf pd := by
  intro pd
  induction pd with
  | nil =>
    intro res h k hk
    simp [buildIndexes] at h
    subst h
    simp [keysOf] at hk
  | cons hd rest ih =>
    intro res h k hk
    obtain ⟨p, docs⟩ := hd
    simp only [buildIndexes] at h
    by_cases hde : docs = []
    · rw [if_pos hde] at h
      exact List.mem_cons_of_mem _ (ih res h k hk)
    · rw [if_neg hde] at h
      cases hmk : DocumentIndex.make docs with
      | error e =>
        rw [hmk] at h
        simp at h
      | ok i =>
        rw [hmk] at h
        cases hbi : buildIndexes rest with
        | error e =>
          rw [hbi] at h
          simp at h
        | ok tail =>
          rw [hbi] at h
          simp only [Except.ok.injEq] at h
          rw [← h] at hk
          rw [keysOf_cons] at hk
          rcases List.mem_cons.mp hk with h2 | h2
          · rw [keysOf_cons, h2]
            exact List.mem_cons_self _ _
          · exact List.mem_cons_of_mem _ (ih tail hbi k h2)

theorem from_pages_absent_main :
    ∀ (pbp : List (String × List Page)) (chunk_size overlap : Int) (p : String),
      (∀ pgs, (p, pgs) ∈ pbp → ∀ pg ∈ pgs, pg.text = []) →
      ∀ res : Agent, Agent.from_pages pbp chunk_size overlap = some (Except.ok res) →
      p ∉ keysOf res.project_indexes ∧
      (∀ (g : GeminiOracle) (conf : ℚ → ℚ) (fmt : ℚ → String)
        (simsOf : String → List ℚ) (question : String)
        (instructions : Option String) (top_k : Nat),
        ∀ ans ∈ Agent.answer res g conf fmt simsOf question instructions top_k,
          ans.1.project ≠ p) := by
  intro pbp chunk_size overlap p hall res hres
  unfold Agent.from_pages at hres
  cases hic : iter_chunks_by_project (iter_project_pages pbp) chunk_size overlap with
  | none =>
    rw [hic] at hres
    simp at hres
  | some r =>
    cases r with
    | error e =>
      rw [hic] at hres
      simp at hres
    | ok chunks =>
      rw [hic] at hres
      have hpp : ∀ pr ∈ iter_project_pages pbp, pr.1 = p → pr.2.text = [] := by
        intro pr hpr hpr1
        unfold iter_project_pages at hpr
        obtain ⟨entry, hentry, hmm⟩ := List.mem_flatMap.mp hpr
        obtain ⟨pg, hpg, hpeq⟩ := List.mem_map.mp hmm
        rw [← hpeq] at hpr1 ⊢
        have hentry2 : (p, entry.2) ∈ pbp := by
          rw [← hpr1]
          simpa using hentry
        exact hall entry.2 hentry2 pg hpg
      have hchunks : ∀ pc ∈ chunks, pc.1 ≠ p :=
        iter_chunks_projects p (iter_project_pages pbp) chunk_size overlap chunks hic hpp
      have hdocs : ∀ doc ∈ build_documents (chunks.map chunkTuple),
          metaProjectStr doc ≠ p := by
        intro doc hdoc hcon
        obtain ⟨pc, hpc, hmp⟩ := build_documents_project chunks doc hdoc
        exact hchunks pc hpc (hmp.symm.trans hcon)
      have hkeys : p ∉ keysOf (groupDocs (build_documents (chunks.map chunkTuple)) []) := by
        intro hk
        rcases groupDocs_keys _ [] p hk with h | ⟨doc, hdoc, hdk⟩
        · simp [keysOf] at h
        · exact hdocs doc hdoc hdk
      cases hbi : buildIndexes (groupDocs (build_documents (chunks.map chunkTuple)) []) with
      | error e =>
        simp [hbi] at hres
      | ok pidx =>
        simp only [hbi] at hres
        have hpidx : p ∉ keysOf pidx :=
          fun hk => hkeys (buildIndexes_keys _ pidx hbi p hk)
        have hresv : res = Agent.mk pidx := by
          simpa using hres.symm
        subst hresv
        refine ⟨hpidx, ?_⟩
        intro g conf fmt simsOf question instructions top_k ans hans hcon
        unfold Agent.answer at hans
        obtain ⟨pi, hpi, hpieq⟩ := List.mem_map.mp hans
        rw [← hpieq] at hcon
        rw [answerProject_project] at hcon
        exact hpidx (hcon ▸ List.mem_map.mpr ⟨pi, hpi, rfl⟩)

/-- C10: if every page of some project carries empty text (in particular a
group that is present but empty), neither `Agent.from_pages` nor the
`Agent.from_pdf` pipeline run on grouped pages builds an index for that
project, and `Agent.answer` consequently returns no `AgentAnswer` for it:
the project is silently absent from the output. -/
theorem from_pages_empty_project_absent :
    (∀ (pbp : List (String × List Page)) (chunk_size overlap : Int) (p : String),
      (∀ pgs, (p, pgs) ∈ pbp → ∀ pg ∈ pgs, pg.text = []) →
      ∀ res : Agent, Agent.from_pages pbp chunk_size overlap = some (Except.ok res) →
      p ∉ keysOf res.project_indexes ∧
      (∀ (g : GeminiOracle) (conf : ℚ → ℚ) (fmt : ℚ → String)
        (simsOf : String → List ℚ) (question : String)
        (instructions : Option String) (top_k : Nat),
        ∀ ans ∈ Agent.answer res g conf fmt simsOf question instructions top_k,
          ans.1.project ≠ p)) ∧
    (∀ (f : Page → List String) (dflt : String) (pages : List Page)
      (chunk_size overlap : Int) (p : String),
      (∀ pgs, (p, pgs) ∈ group_pages_by_project f dflt pages → ∀ pg ∈ pgs, pg.text = []) →
      ∀ res : Agent,
        Agent.from_pdf_grouped f dflt pages chunk_size overlap = some (Except.ok res) →
        p ∉ keysOf res.project_indexes) :=
  ⟨from_pages_absent_main,
   fun f dflt pages chunk_size overlap p h res hres =>
    (from_pages_absent_main (group_pages_by_project f dflt pages)
      chunk_size overlap p h res hres).1⟩

/-- C10 witness: project "A" has one page with empty text; the built agent
indexes only "B" and "A" is absent. -/
theorem from_pages_empty_project_absent_witness :
    "A" ∉ keysOf (Agent.mk [("B", DocumentIndex.mk
      [Document.mk ['x'] [("project", MetaVal.str "B"), ("page_number", MetaVal.int 2),
        ("chunk_index", MetaVal.int 0)]])]).project_indexes :=
  (from_pages_empty_project_absent.1 [("A", [⟨1, []⟩]), ("B", [⟨2, ['x']⟩])] 5 1 "A"
    (by
      intro pgs hmem pg hpg
      rcases List.mem_cons.mp hmem with h | h
      · rw [Prod.mk.injEq] at h
        rw [h.2] at hpg
        have hpe := List.mem_singleton.mp hpg
        rw [hpe]
      · have h2 := List.mem_singleton.mp h
        have h3 : ("A" : String) = "B" := congrArg Prod.fst h2
        exact absurd h3 (by decide))
    (Agent.mk [("B", DocumentIndex.mk
      [Document.mk ['x'] [("project", MetaVal.str "B"), ("page_number", MetaVal.int 2),
        ("chunk_index", MetaVal.int 0)]])])
    (by decide)).1
